import Mathlib

/-!
Shallow embedding of `src/DiscEvolution/photoevaporation.py` and verification
of its specification claims.

Modelling conventions:
* NumPy float arrays become `List ℚ` (exact rational arithmetic; the claims
  phrased "within floating-point tolerance" become exact equalities).
* Values that are external to the repository — the unit constants `AU`,
  `Msun`, `yr`, `Mjup` from `DiscEvolution.constants`, NumPy's `pi`, and the
  real-valued primitives `np.sqrt` and fractional `**` powers — are passed in
  as a parameter record `NumEnv`, with the (positivity and similar)
  properties a theorem needs stated as hypotheses.
* A NaN produced by the FRIED rate-table lookup is modelled as `Option.none`
  (fallible lookup), matching the `np.isnan` test in the source.
* In-place mutation of `disc._Sigma` (and the dust fractions) is modelled by
  returning an updated `Disc` record.
-/

namespace DiscEvo

set_option maxRecDepth 10000

/-- Modelled from the spec (§6 "Unit constants", §4.2): the unit constants
`AU`, `Msun`, `yr`, `Mjup` imported from `DiscEvolution.constants` (a module
not present in `src/`), together with NumPy's `pi` and its real-valued
numeric primitives `np.sqrt` and the fractional power `x ** e` (written
`rpow x e`), abstracted as parameters of the embedding. -/
structure NumEnv where
  AU : ℚ
  Msun : ℚ
  yr : ℚ
  Mjup : ℚ
  pi : ℚ
  sqrt : ℚ → ℚ
  rpow : ℚ → ℚ → ℚ

/-- The disc data contract (spec §3, §6) consumed and mutated by the engine.
Arrays are `List ℚ`, ordered inner → outer.  The two dust populations of
`Sigma_D`, `dust_frac` (= `disc._eps`) and `grain_size` are stored as two
lists each (suffixes 0 and 1 are the two rows of the corresponding `2×N`
NumPy arrays).  `isDusty` models the `isinstance(disc, DustyDisc)` test. -/
structure Disc where
  R : List ℚ
  R_edge : List ℚ
  Sigma : List ℚ
  Sigma_G : List ℚ
  H : List ℚ
  cs : List ℚ
  Mstar : ℚ
  rho_s : ℚ
  isDusty : Bool
  Sigma_D0 : List ℚ
  Sigma_D1 : List ℚ
  dust_frac0 : List ℚ
  dust_frac1 : List ℚ
  grain_size0 : List ℚ
  grain_size1 : List ℚ
  p : ℚ
  Mwind_cum : ℚ

/-- Modelled from the spec (§3, §6): `disc.integ_dust_frac`, defined in the
dust module (not present in `src/`), is the total dust fraction of a cell:
the sum of the two population dust fractions. -/
def integ_dust_frac (disc : Disc) : List ℚ :=
  List.zipWith (· + ·) disc.dust_frac0 disc.dust_frac1

/-- Mask `not_empty = (disc.Sigma_G > 0)` (photoevaporation.py line 29). -/
def boolMask (l : List ℚ) : List Bool := l.map (fun x => decide (0 < x))

def not_empty (disc : Disc) : List Bool := boolMask disc.Sigma_G

/-- Edge radii in physical units, `Re = disc.R_edge * AU` (line 32). -/
def Re_phys (env : NumEnv) (disc : Disc) : List ℚ := disc.R_edge.map (· * env.AU)

/-- Annulus areas `dA = np.pi * (Re[1:]**2 - Re[:-1]**2)` (line 33). -/
def dA_list (env : NumEnv) (disc : Disc) : List ℚ :=
  List.zipWith (fun b a => env.pi * (b ^ 2 - a ^ 2))
    ((Re_phys env disc).drop 1) (Re_phys env disc)

/-- Annulus gas masses `dM_gas = disc.Sigma_G * dA` (line 34). -/
def dM_gas_list (env : NumEnv) (disc : Disc) : List ℚ :=
  List.zipWith (· * ·) disc.Sigma_G (dA_list env disc)

/-- A rate provider: the abstract method `mass_loss_rate(self, disc, not_empty)`
of `ExternalPhotoevaporationBase` implementations (rates in Msun/yr). -/
def Provider : Type := Disc → List Bool → List ℚ

/-- Method `ExternalPhotoevaporationBase.unweighted_rates` (lines 25-46).  The
`Track` branch only appends to the provider's `_Mdot` history and does not
affect the disc or the returned value, so it is not modelled.  Returns
`(dM_dot, dM_gas)` with `dM_dot = Mdot * Msun / (2*pi)` (line 40). -/
def unweighted_rates (env : NumEnv) (mlr : Provider) (disc : Disc) :
    List ℚ × List ℚ :=
  let Mdot := mlr disc (not_empty disc)
  (Mdot.map (fun m => m * env.Msun / (2 * env.pi)), dM_gas_list env disc)

/-- Boolean-mask fancy indexing `l[mask]` (a NumPy compress). -/
def compress (mask : List Bool) (l : List ℚ) : List ℚ :=
  (List.zip l mask).filterMap (fun q => if q.2 then some q.1 else none)

/-- Zero padding `np.concatenate((l, np.zeros(n - np.size(l))))` (lines 57-58). -/
def padZeros (l : List ℚ) (n : ℕ) : List ℚ := l ++ List.replicate (n - l.length) 0

/-- Reverse cumulative sum `np.cumsum(l[::-1])[::-1]`: inclusive suffix sums
(lines 55, 59). -/
def revCumSum : List ℚ → List ℚ
  | [] => []
  | x :: xs => (x + xs.sum) :: revCumSum xs

/-- Forward cumulative sum `np.cumsum(l)`: inclusive prefix sums (line 294). -/
def cumSum (l : List ℚ) : List ℚ :=
  (List.range l.length).map (fun i => (l.take (i + 1)).sum)

/-- Method `ExternalPhotoevaporationBase.get_timescale` (lines 48-62).  Returns
`(dM_evap, dM_gas, M_tot, Dt)`.  Note that `Dt_R` is built from the
mask-compressed masses and rates and then zero-padded back to full length
(lines 56-57), and `dM_evap` is zero-padded (line 58). -/
def get_timescale (env : NumEnv) (mlr : Provider) (disc : Disc) :
    List ℚ × List ℚ × List ℚ × List ℚ :=
  let ur := unweighted_rates env mlr disc
  let dM_evap := ur.1
  let dMg := ur.2
  let mask := not_empty disc
  let M_tot := revCumSum dMg
  let Dt_R := padZeros
    (List.zipWith (· / ·) (compress mask dMg) (compress mask dM_evap))
    disc.Sigma_G.length
  let dM_evap2 := padZeros dM_evap disc.Sigma_G.length
  let Dt := revCumSum Dt_R
  (dM_evap2, dMg, M_tot, Dt)

/-- The `Sigma`-array update of `timescale_remove` (lines 70-79), as a
function of the current `Sigma`, the cumulative timescales `Dt`, the cell
count `N = np.size(disc.Sigma_G)` and the timestep: `excess_t  = dt - Dt`,
cells with positive excess are emptied, and — when not every cell empties —
the marginal cell `half_empty = -(np.sum(empty) + 1)` is scaled.
`half_empty` is a Python negative index; its Python value
`half_empty + 1 = -np.sum(empty)` resolves to the array index
`N - np.sum(empty)` when `np.sum(empty) > 0` but wraps around to index `0`
when `np.sum(empty) = 0` (negative zero is zero).  Both cases are modelled
exactly as NumPy evaluates them. -/
def ts_update (Sigma Dt : List ℚ) (N : ℕ) (dt : ℚ) : List ℚ :=
  let excess := Dt.map (fun d => dt - d)
  let empty := excess.map (fun e => decide (0 < e))
  let Sigma1 := List.zipWith (fun s b => if b then 0 else s) Sigma empty
  let k := empty.count true
  if k < N then
    let h := N - (k + 1)
    let hp1 := if k = 0 then 0 else N - k
    let factor := -1 * excess.getD h 0 / (Dt.getD h 0 - Dt.getD hp1 0)
    Sigma1.set h (Sigma1.getD h 0 * factor)
  else
    Sigma1

/-- Method `ExternalPhotoevaporationBase.timescale_remove` (lines 64-79):
retrieve the timescales `Dt` from `get_timescale` and apply the `Sigma`
update `ts_update` in place. -/
def timescale_remove (env : NumEnv) (mlr : Provider) (disc : Disc) (dt : ℚ) :
    Disc :=
  let gt := get_timescale env mlr disc
  let Dt := gt.2.2.2
  { disc with Sigma := ts_update disc.Sigma Dt disc.Sigma_G.length dt }

/-- Maximum `np.max` of a nonempty list (`0` for the empty list, where NumPy
errors). -/
def listMax (l : List ℚ) : ℚ := l.max?.getD 0

/-- Index `np.argmax`: index of the first occurrence of the maximum. -/
def listArgmax (l : List ℚ) : ℕ := l.findIdx (fun x => decide (listMax l ≤ x))

/-- Transition index `i_max = np.size(Mdot) - np.argmax(Mdot[::-1]) - 1`
(line 87). -/
def ot_imax (Mdot : List ℚ) : ℕ := Mdot.length - listArgmax Mdot.reverse - 1

/-- Weight basis `s = disc.R**(3/2) * disc.Sigma_G` (line 91); `3/2` is the Python float
`1.5`, so the power is the real `rpow` primitive. -/
def ot_s (env : NumEnv) (disc : Disc) : List ℚ :=
  List.zipWith (fun r sg => env.rpow r (3 / 2) * sg) disc.R disc.Sigma_G

/-- Mask `ot_radii = (disc.R >= disc.R[i_max])` (line 90). -/
def ot_mask (disc : Disc) (imax : ℕ) : List Bool :=
  disc.R.map (fun r => decide (disc.R.getD imax 0 ≤ r))

/-- Lines 90-94 of `optically_thin_weighting`: the normalized weights
`s_weight = (s / np.sum(s[ot_radii])) * ot_radii`. -/
def ot_sweight (env : NumEnv) (disc : Disc) (Mdot : List ℚ) : List ℚ :=
  let ot := ot_mask disc (ot_imax Mdot)
  let s := ot_s env disc
  let stot := (List.zipWith (fun si b => if b then si else 0) s ot).sum
  List.zipWith (fun w b => if b then w else 0) (s.map (· / stot)) ot

/-- Method `ExternalPhotoevaporationBase.optically_thin_weighting` (lines 81-102).
Returns `(M_dot_eff, dM_gas)`; the `Track` history append is not modelled. -/
def optically_thin_weighting (env : NumEnv) (mlr : Provider) (disc : Disc) :
    List ℚ × List ℚ :=
  let ur := unweighted_rates env mlr disc
  let Mdot := ur.1
  let sweight := ot_sweight env disc Mdot
  let Mdtot := (List.zipWith (· * ·) Mdot sweight).sum
  (sweight.map (fun w => Mdtot * w), ur.2)

/-- Function `Facchini_limit` (lines 176-193) evaluated at one annulus:
`F = H/sqrt(H**2+R**2)`, `v_th = sqrt(8/pi)*cs`,
`a_entr = (v_th*Mdot)/(Mstar*4*pi*F*rho) * Msun/AU**2/yr`. -/
def Facchini_point (env : NumEnv) (H R cs rho Mstar Mdot : ℚ) : ℚ :=
  let F := H / env.sqrt (H ^ 2 + R ^ 2)
  let v_th := env.sqrt (8 / env.pi) * cs
  v_th * Mdot / (Mstar * 4 * env.pi * F * rho) * env.Msun / env.AU ^ 2 / env.yr

/-- The vectorized `Facchini_limit(disc, Mdot)` over all annuli. -/
def Facchini_limit (env : NumEnv) (disc : Disc) (Mdot : List ℚ) : List ℚ :=
  (List.range disc.R.length).map (fun i =>
    Facchini_point env (disc.H.getD i 0) (disc.R.getD i 0) (disc.cs.getD i 0)
      disc.rho_s disc.Mstar (Mdot.getD i 0))

/-- Total dust mass `M_dust.sum(0)`: the per-annulus total dust mass
`M_dust = disc.Sigma_D * dA` summed over the two populations (lines 153-155). -/
def M_dust_tot (env : NumEnv) (disc : Disc) : List ℚ :=
  List.zipWith (· + ·)
    (List.zipWith (· * ·) disc.Sigma_D0 (dA_list env disc))
    (List.zipWith (· * ·) disc.Sigma_D1 (dA_list env disc))

/-- Method `ExternalPhotoevaporationBase.dust_entrainment` (lines 146-164).  The
provider state `self._amax` read at line 148 is passed explicitly as
`a_ent`.  `amax = a[1,:]` is `grain_size1`; on cells with gas,
`f_ent = np.minimum(1, (a_ent/amax)**(4-disc._p))` and
`M_ent = M_dust.sum(0) * f_ent`; other cells keep the `np.zeros` value. -/
def dust_entrainment (env : NumEnv) (disc : Disc) (a_ent : List ℚ) : List ℚ :=
  (List.range disc.Sigma.length).map (fun i =>
    if 0 < disc.Sigma_G.getD i 0 then
      (M_dust_tot env disc).getD i 0 *
        min 1 (env.rpow (a_ent.getD i 0 / disc.grain_size1.getD i 0) (4 - disc.p))
    else 0)

/-- Dust population split `f_m` of `weighted_removal` (lines 111-114):
`dust_frac[1] / integ_dust_frac` on cells whose total initial dust surface
density `Sigma_D0.sum(0)` is positive, else the `np.zeros` value. -/
def weighted_f_m (disc : Disc) : List ℚ :=
  let SDsum := List.zipWith (· + ·) disc.Sigma_D0 disc.Sigma_D1
  (List.range disc.Sigma.length).map (fun i =>
    if 0 < SDsum.getD i 0 then
      disc.dust_frac1.getD i 0 / (integ_dust_frac disc).getD i 0
    else 0)

/-- Mass-loss argument of the `_amax` update (line 117):
`np.sum(dM_dot) * (dM_dot > 0) * (yr/Msun)`, an array. -/
def weighted_a_ent_arg (env : NumEnv) (dMdot : List ℚ) (nR : ℕ) : List ℚ :=
  (List.range nR).map (fun i =>
    dMdot.sum * (if 0 < dMdot.getD i 0 then 1 else 0) * (env.yr / env.Msun))

/-- Entrained dust mass removed per annulus (lines 131-132):
`M_ent_w = M_ent * dM_evap / dM_gas` where the initial gas mass is positive,
else the `np.zeros_like` value. -/
def weighted_M_ent_w (env : NumEnv) (mlr : Provider) (disc : Disc) (dt : ℚ) :
    List ℚ :=
  let ow := optically_thin_weighting env mlr disc
  let dMdot := ow.1
  let dMg := ow.2
  let dM_evap := dMdot.map (· * dt)
  let a_ent := Facchini_limit env disc (weighted_a_ent_arg env dMdot disc.R.length)
  let M_ent := dust_entrainment env disc a_ent
  (List.range disc.Sigma.length).map (fun i =>
    if 0 < dMg.getD i 0 then
      M_ent.getD i 0 * dM_evap.getD i 0 / dMg.getD i 0
    else 0)

/-- Method `ExternalPhotoevaporationBase.weighted_removal` (lines 104-144).  The
dust branch (`isinstance(disc, DustyDisc)`) computes the population split
`f_m`, updates the provider's `_amax` through `Facchini_limit` with the
summed positive rate (line 117), removes gas (line 127) and entrained dust
(lines 131-133), and rebuilds the dust fractions on cells that still have
positive `Sigma` (lines 136-141); `_Mwind_cum` accumulates the removed
entrained mass (line 144). -/
def weighted_removal (env : NumEnv) (mlr : Provider) (disc : Disc) (dt : ℚ) :
    Disc :=
  let ow := optically_thin_weighting env mlr disc
  let dMdot := ow.1
  let dAl := dA_list env disc
  let dM_evap := dMdot.map (· * dt)
  let Sigma1 := List.zipWith (· - ·) disc.Sigma
    (List.zipWith (· / ·) dM_evap dAl)
  if disc.isDusty then
    let SDsum := List.zipWith (· + ·) disc.Sigma_D0 disc.Sigma_D1
    let f_m := weighted_f_m disc
    let M_ent_w := weighted_M_ent_w env mlr disc dt
    let Sigma2 := List.zipWith (· - ·) Sigma1
      (List.zipWith (· / ·) M_ent_w dAl)
    let ne := Sigma2.map (fun s => decide (0 < s))
    let new_dust_frac := (List.range disc.Sigma.length).map (fun i =>
      if ne.getD i false then
        (SDsum.getD i 0 - M_ent_w.getD i 0 / dAl.getD i 0) / Sigma2.getD i 0
      else 0)
    let eps0 := (List.range disc.Sigma.length).map (fun i =>
      if ne.getD i false then new_dust_frac.getD i 0 * (1 - f_m.getD i 0)
      else disc.dust_frac0.getD i 0)
    let eps1 := (List.range disc.Sigma.length).map (fun i =>
      if ne.getD i false then new_dust_frac.getD i 0 * f_m.getD i 0
      else disc.dust_frac1.getD i 0)
    { disc with Sigma := Sigma2, dust_frac0 := eps0, dust_frac1 := eps1,
                Mwind_cum := disc.Mwind_cum + M_ent_w.sum }
  else
    { disc with Sigma := Sigma1 }

/-- Method `FixedExternalEvaporation.mass_loss_rate` (lines 214-215):
`Mdot * np.ones_like(disc.Sigma[not_empty])`, an array with one entry per
`True` in the mask. -/
def FixedExternalEvaporation_mlr (Mdot : ℚ) : Provider :=
  fun _disc mask => List.replicate (mask.count true) Mdot

/-- The FRIED rate-table lookup `self.FRIED_Rates.PE_rate` (external
service, not in `src/`): maps a condition value and a radius to a rate in
Msun/yr, or `none` for a NaN (undefined / out-of-grid) result. -/
def Lookup : Type := ℚ → ℚ → Option ℚ

/-- Floor rate `1e-10` Msun/yr (lines 241, 268, 299). -/
def floorRate : ℚ := 1 / 10 ^ 10

/-- Array `calc_rates` of `FRIEDExternalEvaporationS.mass_loss_rate` (lines
237-238): `np.zeros_like(disc.R)` with the lookup scattered onto the
`not_empty` cells.  A `some 0` entry is an untouched zero; `none` is a NaN
from the lookup. -/
def FRIED_S_calc_rates (lookup : Lookup) (disc : Disc) (mask : List Bool) :
    List (Option ℚ) :=
  (List.range disc.R.length).map (fun i =>
    if mask.getD i false then lookup (disc.Sigma_G.getD i 0) (disc.R.getD i 0)
    else some 0)

/-- Replacement `final_rates[norate] = 1e-10` (lines 239-241): NaN entries are
replaced
by the floor rate. -/
def nanFloor (o : Option ℚ) : Option ℚ :=
  match o with
  | none => some floorRate
  | some v => some v

def FRIED_S_final_rates (lookup : Lookup) (disc : Disc) (mask : List Bool) :
    List (Option ℚ) :=
  (FRIED_S_calc_rates lookup disc mask).map nanFloor

/-- Method `FRIEDExternalEvaporationS.mass_loss_rate` (lines 236-242). -/
def FRIED_S_mass_loss_rate (lookup : Lookup) (disc : Disc) (mask : List Bool) :
    List ℚ :=
  (FRIED_S_final_rates lookup disc mask).map (fun o => o.getD 0)

/-- Integrated mass `integ_mass = np.cumsum(dM_gas) / Mjup` of
`FRIEDExternalEvaporationM.mass_loss_rate` (lines 291-294). -/
def FRIED_M_integ_mass (env : NumEnv) (disc : Disc) : List ℚ :=
  (cumSum (dM_gas_list env disc)).map (· / env.Mjup)

/-- Array `calc_rates` of `FRIEDExternalEvaporationM.mass_loss_rate` (lines
295-296): the lookup is keyed by `(integ_mass, R)`. -/
def FRIED_M_calc_rates (env : NumEnv) (lookup : Lookup) (disc : Disc)
    (mask : List Bool) : List (Option ℚ) :=
  (List.range disc.R.length).map (fun i =>
    if mask.getD i false then
      lookup ((FRIED_M_integ_mass env disc).getD i 0) (disc.R.getD i 0)
    else some 0)

def FRIED_M_final_rates (env : NumEnv) (lookup : Lookup) (disc : Disc)
    (mask : List Bool) : List (Option ℚ) :=
  (FRIED_M_calc_rates env lookup disc mask).map nanFloor

/-- Method `FRIEDExternalEvaporationM.mass_loss_rate` (lines 290-300). -/
def FRIED_M_mass_loss_rate (env : NumEnv) (lookup : Lookup) (disc : Disc)
    (mask : List Bool) : List ℚ :=
  (FRIED_M_final_rates env lookup disc mask).map (fun o => o.getD 0)

/-- Definition following the spec's words (§4.2): "the annulus index of the
maximum raw rate scanning from the outer edge inward (... the first local
maximum found from outside)" — the outermost index whose value is not
exceeded by either neighbour.  Used only to compare against the source's
`ot_imax`. -/
def specFirstLocalMaxOutside (l : List ℚ) : ℕ :=
  ((List.range l.length).reverse.find? (fun i =>
    decide ((i + 1 < l.length → l.getD (i + 1) 0 ≤ l.getD i 0) ∧
            (0 < i → l.getD (i - 1) 0 ≤ l.getD i 0)))).getD 0

/-! Concrete instantiations used for counterexamples, code-bug evaluations
and witnesses.  The external constants carry arbitrary positive rational
values and the real-valued primitives are instantiated by rational
functions; every theorem hypothesis a concrete instance must satisfy is
discharged by `decide` at the point of use. -/

/-- A numeric environment with unit constants `1`, `pi = 3`, the identity
for `sqrt` and first-argument projection for `rpow`. -/
def envA : NumEnv :=
  { AU := 1, Msun := 1, yr := 1, Mjup := 1, pi := 3,
    sqrt := fun x => x, rpow := fun x _ => x }

/-- A numeric environment whose `rpow` is constantly `2`, so that the
entrainment fraction `min 1 (rpow ...)` clamps to `1` (as it would for the
real power with an entrainment size far above the maximum grain size). -/
def envD : NumEnv :=
  { AU := 1, Msun := 1, yr := 1, Mjup := 1, pi := 3,
    sqrt := fun x => x, rpow := fun _ _ => 2 }

/-- A two-annulus gas-only disc with unit surface density. -/
def discB : Disc :=
  { R := [1 / 2, 3 / 2], R_edge := [0, 1, 2], Sigma := [1, 1],
    Sigma_G := [1, 1], H := [1, 1], cs := [1, 1], Mstar := 1, rho_s := 1,
    isDusty := false, Sigma_D0 := [0, 0], Sigma_D1 := [0, 0],
    dust_frac0 := [0, 0], dust_frac1 := [0, 0], grain_size0 := [0, 0],
    grain_size1 := [0, 0], p := 7 / 2, Mwind_cum := 0 }

/-- A one-annulus gas-only disc. -/
def discC : Disc :=
  { R := [1], R_edge := [1, 2], Sigma := [10], Sigma_G := [10], H := [1],
    cs := [1], Mstar := 1, rho_s := 1, isDusty := false, Sigma_D0 := [0],
    Sigma_D1 := [0], dust_frac0 := [0], dust_frac1 := [0],
    grain_size0 := [0], grain_size1 := [0], p := 7 / 2, Mwind_cum := 0 }

/-- A one-annulus disc with zero gas surface density. -/
def discE : Disc :=
  { R := [1], R_edge := [1, 2], Sigma := [1], Sigma_G := [-1], H := [1],
    cs := [1], Mstar := 1, rho_s := 1, isDusty := false, Sigma_D0 := [0],
    Sigma_D1 := [0], dust_frac0 := [0], dust_frac1 := [0],
    grain_size0 := [0], grain_size1 := [0], p := 7 / 2, Mwind_cum := 0 }

/-- A four-annulus gas-only disc with unit surface density. -/
def disc4r : Disc :=
  { R := [1, 2, 3, 4], R_edge := [1, 2, 3, 4, 5], Sigma := [1, 1, 1, 1],
    Sigma_G := [1, 1, 1, 1], H := [1, 1, 1, 1], cs := [1, 1, 1, 1],
    Mstar := 1, rho_s := 1, isDusty := false, Sigma_D0 := [0, 0, 0, 0],
    Sigma_D1 := [0, 0, 0, 0], dust_frac0 := [0, 0, 0, 0],
    dust_frac1 := [0, 0, 0, 0], grain_size0 := [0, 0, 0, 0],
    grain_size1 := [0, 0, 0, 0], p := 7 / 2, Mwind_cum := 0 }

/-- The spec's concrete scenario (§8): a five-annulus disc with uniform
`Sigma_G = 10` in code units. -/
def disc5u : Disc :=
  { R := [3 / 2, 5 / 2, 7 / 2, 9 / 2, 11 / 2], R_edge := [1, 2, 3, 4, 5, 6],
    Sigma := [10, 10, 10, 10, 10], Sigma_G := [10, 10, 10, 10, 10],
    H := [1, 1, 1, 1, 1], cs := [1, 1, 1, 1, 1], Mstar := 1, rho_s := 1,
    isDusty := false, Sigma_D0 := [0, 0, 0, 0, 0], Sigma_D1 := [0, 0, 0, 0, 0],
    dust_frac0 := [0, 0, 0, 0, 0], dust_frac1 := [0, 0, 0, 0, 0],
    grain_size0 := [0, 0, 0, 0, 0], grain_size1 := [0, 0, 0, 0, 0],
    p := 7 / 2, Mwind_cum := 0 }

/-- A one-annulus dusty disc with equal dust populations. -/
def discDustA : Disc :=
  { R := [4], R_edge := [1, 2], Sigma := [10], Sigma_G := [10], H := [3],
    cs := [3], Mstar := 1, rho_s := 1, isDusty := true, Sigma_D0 := [1],
    Sigma_D1 := [1], dust_frac0 := [1 / 10], dust_frac1 := [1 / 10],
    grain_size0 := [1 / 100], grain_size1 := [1], p := 7 / 2, Mwind_cum := 0 }

/-- A three-annulus gas-only disc used with a single-interior-peak provider. -/
def disc3w : Disc :=
  { R := [1, 2, 3], R_edge := [1, 2, 3, 4], Sigma := [1, 1, 1],
    Sigma_G := [1, 1, 1], H := [1, 1, 1], cs := [1, 1, 1], Mstar := 1,
    rho_s := 1, isDusty := false, Sigma_D0 := [0, 0, 0], Sigma_D1 := [0, 0, 0],
    dust_frac0 := [0, 0, 0], dust_frac1 := [0, 0, 0],
    grain_size0 := [0, 0, 0], grain_size1 := [0, 0, 0], p := 7 / 2,
    Mwind_cum := 0 }

/-- A rate-table lookup that always returns `6` Msun/yr. -/
def lookupConst6 : Lookup := fun _ _ => some 6

/-- A rate-table lookup that always returns NaN (out-of-grid everywhere). -/
def lookupNone : Lookup := fun _ _ => none

/-- A provider whose raw rates step as `[5, 1, 2, 1]` (inner → outer). -/
def mlrStep : Provider := fun _ _ => [5, 1, 2, 1]

/-- A provider whose raw rates have their unique strict maximum at the
middle annulus of a three-annulus disc. -/
def mlrPeak : Provider := fun _ _ => [1, 5, 2]

/-! Helper lemmas about the list primitives of the embedding. -/

theorem getD_range_map {α : Type} (d : α) (f : ℕ → α) (n i : ℕ) (h : i < n) :
    ((List.range n).map f).getD i d = f i := by
  rw [List.getD_eq_getElem?_getD,
    List.getElem?_eq_getElem (by simpa using h), List.getElem_map,
    List.getElem_range]
  rfl

theorem getD_of_lt {α : Type} (d : α) (l : List α) (i : ℕ) (h : i < l.length) :
    l.getD i d = l[i] := by
  rw [List.getD_eq_getElem?_getD, List.getElem?_eq_getElem h]
  rfl

theorem getD_map_of_lt {α β : Type} (d : β) (f : α → β) (l : List α) (i : ℕ)
    (h : i < l.length) : (l.map f).getD i d = f l[i] := by
  rw [List.getD_eq_getElem?_getD,
    List.getElem?_eq_getElem (by simpa using h), List.getElem_map]
  rfl

theorem list_sum_eq_range_sum (l : List ℚ) :
    l.sum = ∑ i in Finset.range l.length, l.getD i 0 := by
  induction l with
  | nil => simp
  | cons x xs ih =>
    rw [List.sum_cons, ih, List.length_cons, Finset.sum_range_succ']
    simp only [List.getD_cons_succ, List.getD_cons_zero]
    exact add_comm x _

theorem drop_sum_eq (l : List ℚ) (m : ℕ) :
    (l.drop m).sum = ∑ i in Finset.Ico m l.length, l.getD i 0 := by
  induction l generalizing m with
  | nil => simp
  | cons x xs ih =>
    cases m with
    | zero =>
      rw [List.drop_zero, list_sum_eq_range_sum, Finset.range_eq_Ico]
    | succ m =>
      rw [List.drop_succ_cons, ih m, List.length_cons]
      rw [show Finset.Ico (m + 1) (xs.length + 1) =
        Finset.map ⟨Nat.succ, Nat.succ_injective⟩ (Finset.Ico m xs.length) by
          rw [Finset.map_eq_image]
          ext j
          simp only [Finset.mem_image, Finset.mem_Ico, Function.Embedding.coeFn_mk]
          constructor
          · rintro ⟨h1, h2⟩
            exact ⟨j - 1, ⟨by omega, by omega⟩, by omega⟩
          · rintro ⟨a, ⟨h1, h2⟩, rfl⟩
            omega]
      rw [Finset.sum_map]
      exact Finset.sum_congr rfl (fun i _ => rfl)

/-! Closed evaluations of the code at concrete inputs: counterexamples and
code-bug demonstrations. -/

/-- C1 (counterexample): the claim "after any removal call every entry of
`Sigma` is >= 0" is false as stated: on a one-annulus gas disc with
`Sigma = [10]`, a removal rate of one mass unit per dynamical time and
`dt = 1000`, `weighted_removal` drives `Sigma` to `-910/9 < 0`. -/
theorem C1_counterexample :
    (weighted_removal envA (FRIED_S_mass_loss_rate lookupConst6) discC
      1000).Sigma.getD 0 0 < 0 := by
  norm_num [weighted_removal, optically_thin_weighting, ot_sweight, ot_s, ot_mask,
    ot_imax, listArgmax, listMax, unweighted_rates, not_empty, boolMask,
    dM_gas_list, dA_list, Re_phys, FRIED_S_mass_loss_rate, FRIED_S_final_rates,
    FRIED_S_calc_rates, nanFloor, lookupConst6, envA, discC, List.zipWith,
    List.getD, List.range_succ, List.findIdx, List.findIdx.go]

/-- C2 (code evaluated at the failing input): on the spec's five-annulus
scenario (`Sigma_G = 10`, Fixed provider at `Mdot = 1e-8`), with `dt` equal
to half the outermost annulus's depletion time (`Dt[4] = 2*dt`),
`timescale_remove` leaves the four interior annuli unchanged but multiplies
the outermost `Sigma` by a negative factor — the result is negative, not
half the original value: the marginal-cell index `half_empty + 1` wraps
around to `0`, so the denominator `Dt[-1] - Dt[0]` is negative. -/
theorem C2_code_divergence :
    (get_timescale envA (FixedExternalEvaporation_mlr (1 / 10 ^ 8))
        disc5u).2.2.2.getD 4 0 = 2 * (99 * 10 ^ 9) ∧
    (timescale_remove envA (FixedExternalEvaporation_mlr (1 / 10 ^ 8)) disc5u
        (99 * 10 ^ 9)).Sigma.getD 4 0 < 0 ∧
    (timescale_remove envA (FixedExternalEvaporation_mlr (1 / 10 ^ 8)) disc5u
        (99 * 10 ^ 9)).Sigma.getD 4 0 ≠ 5 ∧
    ∀ i < 4, (timescale_remove envA (FixedExternalEvaporation_mlr (1 / 10 ^ 8))
        disc5u (99 * 10 ^ 9)).Sigma.getD i 0 = 10 := by
  refine ⟨?_, ?_, ?_, ?_⟩ <;>
  · norm_num [timescale_remove, ts_update, get_timescale, unweighted_rates, not_empty,
      boolMask, dM_gas_list, dA_list, Re_phys, FixedExternalEvaporation_mlr, compress,
      padZeros, revCumSum, envA, disc5u, List.zipWith, List.zip, List.filterMap,
      List.getD, List.count_cons, List.range_succ, List.replicate]
    try (intro i hi; interval_cases i <;> norm_num)

/-- C3 (code evaluated at the failing input): with `dt = 0`,
`weighted_removal` leaves `Sigma` unchanged, but `timescale_remove` does
not: on a two-annulus disc it multiplies the outermost entry by
`Dt[-1]/(Dt[-1]-Dt[0]) = -3` (the same wrap-around of the marginal-cell
index as in the C2 divergence), turning `Sigma = [1, 1]` into `[1, -3]`. -/
theorem C3_code_divergence :
    (weighted_removal envA (FixedExternalEvaporation_mlr 1) discB 0).Sigma =
      discB.Sigma ∧
    (timescale_remove envA (FixedExternalEvaporation_mlr 1) discB 0).Sigma =
      [1, -3] ∧
    (timescale_remove envA (FixedExternalEvaporation_mlr 1) discB 0).Sigma ≠
      discB.Sigma := by
  have h : (timescale_remove envA (FixedExternalEvaporation_mlr 1) discB
      0).Sigma = [1, -3] := by
    norm_num [timescale_remove, ts_update, get_timescale, unweighted_rates, not_empty,
      boolMask, dM_gas_list, dA_list, Re_phys, FixedExternalEvaporation_mlr, compress,
      padZeros, revCumSum, envA, discB, List.zipWith, List.zip, List.filterMap,
      List.getD, List.count_cons, List.range_succ, List.replicate]
  refine ⟨?_, h, ?_⟩
  · norm_num [weighted_removal, optically_thin_weighting, ot_sweight, ot_s, ot_mask,
      ot_imax, listArgmax, listMax, unweighted_rates, not_empty, boolMask,
      dM_gas_list, dA_list, Re_phys, FixedExternalEvaporation_mlr, envA, discB,
      List.zipWith, List.getD, List.range_succ, List.findIdx, List.findIdx.go,
      List.max?, List.foldl, max_def, List.replicate, List.reverse_cons, discB]
  · rw [h]
    simp only [discB, ne_eq, List.cons.injEq]
    norm_num

/-- C4 (counterexample): on a dusty disc the claimed identity "total `Sigma`
decrease times area equals the summed weighted rate times `dt`" fails:
`weighted_removal` also removes entrained dust from `Sigma`, so the
removed mass is `6/5` while the summed weighted rate times `dt` is `1`. -/
theorem C4_counterexample :
    ((List.range 1).map (fun i =>
      (discDustA.Sigma.getD i 0 -
        (weighted_removal envD (FRIED_S_mass_loss_rate lookupConst6) discDustA
          1).Sigma.getD i 0) * (dA_list envD discDustA).getD i 0)).sum ≠
    ((optically_thin_weighting envD (FRIED_S_mass_loss_rate lookupConst6)
      discDustA).1.map (· * 1)).sum := by
  norm_num [weighted_removal, weighted_M_ent_w, weighted_f_m, weighted_a_ent_arg,
    dust_entrainment, M_dust_tot, Facchini_limit, Facchini_point, integ_dust_frac,
    optically_thin_weighting, ot_sweight, ot_s, ot_mask, ot_imax, listArgmax,
    listMax, unweighted_rates, not_empty, boolMask, dM_gas_list, dA_list, Re_phys,
    FRIED_S_mass_loss_rate, FRIED_S_final_rates, FRIED_S_calc_rates, nanFloor,
    lookupConst6, envD, discDustA, List.zipWith, List.getD, List.range_succ,
    List.findIdx, List.findIdx.go]

/-- C5 (counterexample): for raw provider rates `[5, 1, 2, 1]` the
transition index computed by the code is `0` (the outermost occurrence of
the global maximum), while the spec's "first local maximum found from
outside" is index `2`. -/
theorem C5_counterexample :
    ot_imax (unweighted_rates envA mlrStep disc4r).1 = 0 ∧
    specFirstLocalMaxOutside (unweighted_rates envA mlrStep disc4r).1 = 2 := by
  have h : (unweighted_rates envA mlrStep disc4r).1 = [5 / 6, 1 / 6, 1 / 3, 1 / 6] := by
    norm_num [unweighted_rates, not_empty, boolMask, mlrStep, envA, disc4r, List.map]
  rw [h]
  constructor
  · norm_num [ot_imax, listArgmax, listMax, List.max?, List.foldl, max_def,
      List.findIdx, List.findIdx.go, List.reverse_cons]
  · norm_num [specFirstLocalMaxOutside, List.range_succ, List.find?, List.getD,
      List.reverse_cons]

/-! Claims C7 and C10: NaN handling and zero-density cells of the
table-based providers. -/

theorem nanFloor_isSome (o : Option ℚ) : (nanFloor o).isSome = true := by
  cases o <;> rfl

theorem ratesFromCalc_floor (cal : List (Option ℚ)) (i : ℕ) (h : i < cal.length)
    (hnan : cal[i] = none) :
    ((cal.map nanFloor).map (fun o => o.getD 0)).getD i 0 = floorRate := by
  rw [getD_map_of_lt _ _ _ _ (by simpa using h), List.getElem_map, hnan]
  rfl

theorem ratesFromCalc_isSome (cal : List (Option ℚ)) (i : ℕ) (h : i < cal.length) :
    ((cal.map nanFloor).getD i (some 0)).isSome = true := by
  rw [getD_map_of_lt _ _ _ _ h]
  exact nanFloor_isSome _

/-- C7: for the table-based rate providers (the surface-density variant
`FRIEDExternalEvaporationS` and the integrated-mass variant
`FRIEDExternalEvaporationM`), whenever the rate-table lookup returns an
undefined (NaN, modelled `none`) value for an annulus, `mass_loss_rate`
replaces that annulus's rate with the floor value `1e-10` Msun/yr, and the
final rate array contains no NaN entry (every entry of the array of
optional values after the floor replacement is defined). -/
theorem C7_nan_floor (env : NumEnv) (lookup : Lookup) (disc : Disc)
    (mask : List Bool) (i : ℕ) (hi : i < disc.R.length) :
    ((FRIED_S_calc_rates lookup disc mask).getD i (some 0) = none →
      (FRIED_S_mass_loss_rate lookup disc mask).getD i 0 = floorRate) ∧
    ((FRIED_S_final_rates lookup disc mask).getD i (some 0)).isSome = true ∧
    ((FRIED_M_calc_rates env lookup disc mask).getD i (some 0) = none →
      (FRIED_M_mass_loss_rate env lookup disc mask).getD i 0 = floorRate) ∧
    ((FRIED_M_final_rates env lookup disc mask).getD i (some 0)).isSome = true := by
  have hlenS : (FRIED_S_calc_rates lookup disc mask).length = disc.R.length := by
    simp [FRIED_S_calc_rates]
  have hlenM : (FRIED_M_calc_rates env lookup disc mask).length = disc.R.length := by
    simp [FRIED_M_calc_rates]
  refine ⟨fun h => ?_, ?_, fun h => ?_, ?_⟩
  · exact ratesFromCalc_floor _ i (hlenS ▸ hi)
      (by rw [← getD_of_lt (some 0) _ i (hlenS ▸ hi)]; exact h)
  · exact ratesFromCalc_isSome _ i (hlenS ▸ hi)
  · exact ratesFromCalc_floor _ i (hlenM ▸ hi)
      (by rw [← getD_of_lt (some 0) _ i (hlenM ▸ hi)]; exact h)
  · exact ratesFromCalc_isSome _ i (hlenM ▸ hi)

theorem C7_nan_floor_witness :
    (FRIED_S_mass_loss_rate lookupNone discC [true]).getD 0 0 = floorRate ∧
    ((FRIED_S_final_rates lookupNone discC [true]).getD 0 (some 0)).isSome = true ∧
    (FRIED_M_mass_loss_rate envA lookupNone discC [true]).getD 0 0 = floorRate ∧
    ((FRIED_M_final_rates envA lookupNone discC [true]).getD 0 (some 0)).isSome
      = true := by
  obtain ⟨h1, h2, h3, h4⟩ := C7_nan_floor envA lookupNone discC [true] 0
    (by norm_num [discC])
  refine ⟨h1 ?_, h2, h3 ?_, h4⟩
  · norm_num [FRIED_S_calc_rates, lookupNone, discC, List.range_succ, List.getD]
  · norm_num [FRIED_M_calc_rates, lookupNone, discC, List.range_succ, List.getD]

/-- C10: for both table-based rate providers, called with the engine's
actual mask `not_empty disc`, an annulus whose gas surface density is zero
or negative is excluded from the table lookup; its pre-initialized zero
entry is not NaN, so the returned rate is exactly `0`, not the `1e-10`
floor. -/
theorem C10_zero_density_zero_rate (env : NumEnv) (lookup : Lookup)
    (disc : Disc) (i : ℕ) (hi : i < disc.R.length)
    (hz : disc.Sigma_G.getD i 0 ≤ 0) :
    (FRIED_S_mass_loss_rate lookup disc (not_empty disc)).getD i 0 = 0 ∧
    (FRIED_M_mass_loss_rate env lookup disc (not_empty disc)).getD i 0 = 0 ∧
    floorRate ≠ 0 := by
  have hmask : (not_empty disc).getD i false = false := by
    rcases Nat.lt_or_ge i disc.Sigma_G.length with hlt | hge
    · rw [not_empty, boolMask, getD_map_of_lt _ _ _ _ hlt]
      rw [getD_of_lt 0 _ i hlt] at hz
      simpa using not_lt.mpr hz
    · exact List.getD_eq_default _ _ (by simpa [not_empty, boolMask] using hge)
  have hS : (FRIED_S_calc_rates lookup disc (not_empty disc)).getD i (some 0)
      = some 0 := by
    rw [FRIED_S_calc_rates, getD_range_map _ _ _ i hi, hmask]
    simp
  have hM : (FRIED_M_calc_rates env lookup disc (not_empty disc)).getD i
      (some 0) = some 0 := by
    rw [FRIED_M_calc_rates, getD_range_map _ _ _ i hi, hmask]
    simp
  refine ⟨?_, ?_, by norm_num [floorRate]⟩
  · rw [show FRIED_S_mass_loss_rate lookup disc (not_empty disc) =
      ((FRIED_S_calc_rates lookup disc (not_empty disc)).map nanFloor).map
        (fun o => o.getD 0) from rfl]
    rw [getD_map_of_lt _ _ _ _ (by simpa [FRIED_S_calc_rates] using hi),
      List.getElem_map,
      ← getD_of_lt (some 0) _ i (by simpa [FRIED_S_calc_rates] using hi), hS]
    rfl
  · rw [show FRIED_M_mass_loss_rate env lookup disc (not_empty disc) =
      ((FRIED_M_calc_rates env lookup disc (not_empty disc)).map nanFloor).map
        (fun o => o.getD 0) from rfl]
    rw [getD_map_of_lt _ _ _ _ (by simpa [FRIED_M_calc_rates] using hi),
      List.getElem_map,
      ← getD_of_lt (some 0) _ i (by simpa [FRIED_M_calc_rates] using hi), hM]
    rfl

theorem C10_zero_density_zero_rate_witness :
    (FRIED_S_mass_loss_rate lookupConst6 discE (not_empty discE)).getD 0 0 = 0 ∧
    (FRIED_M_mass_loss_rate envA lookupConst6 discE (not_empty discE)).getD 0 0
      = 0 ∧ floorRate ≠ 0 :=
  C10_zero_density_zero_rate envA lookupConst6 discE 0 (by norm_num [discE])
    (by norm_num [discE, List.getD])

/-! Claim C8: monotonicity of the Facchini entrainment size. -/

/-- C8: with positive scale height, sound speed, stellar mass and grain
density (and positive values of the external square roots and unit
constants), the entrainment size `Facchini_point` strictly increases in
`Mdot` and, for `Mdot > 0`, strictly decreases in the stellar mass and in
the internal grain density, all other parameters held fixed. -/
theorem C8_facchini_monotone (env : NumEnv) (H R cs rho Mstar Mdot x y : ℚ)
    (hsq1 : 0 < env.sqrt (8 / env.pi)) (hsq2 : 0 < env.sqrt (H ^ 2 + R ^ 2))
    (hH : 0 < H) (hcs : 0 < cs) (hpi : 0 < env.pi) (hMsun : 0 < env.Msun)
    (hAU : 0 < env.AU) (hyr : 0 < env.yr) (hrho : 0 < rho) (hMs : 0 < Mstar)
    (hMdot : 0 < Mdot) (hxy : x < y) :
    (0 ≤ x → Facchini_point env H R cs rho Mstar x <
      Facchini_point env H R cs rho Mstar y) ∧
    (0 < x → Facchini_point env H R cs rho y Mdot <
      Facchini_point env H R cs rho x Mdot) ∧
    (0 < x → Facchini_point env H R cs y Mstar Mdot <
      Facchini_point env H R cs x Mstar Mdot) := by
  have hS := hsq2
  have key : ∀ rh Ms m : ℚ, rh ≠ 0 → Ms ≠ 0 →
      Facchini_point env H R cs rh Ms m =
        env.sqrt (8 / env.pi) * cs * env.sqrt (H ^ 2 + R ^ 2) * env.Msun * m /
          (4 * env.pi * H * env.AU ^ 2 * env.yr * rh * Ms) := by
    intro rh Ms m hrh hMs2
    rw [Facchini_point]
    field_simp
    ring
  have hnum : 0 < env.sqrt (8 / env.pi) * cs * env.sqrt (H ^ 2 + R ^ 2) *
      env.Msun := by positivity
  refine ⟨fun hx => ?_, fun hx => ?_, fun hx => ?_⟩
  · rw [key rho Mstar x hrho.ne' hMs.ne', key rho Mstar y hrho.ne' hMs.ne']
    have hden : 0 < 4 * env.pi * H * env.AU ^ 2 * env.yr * rho * Mstar := by
      positivity
    exact (div_lt_div_iff_of_pos_right hden).mpr (mul_lt_mul_of_pos_left hxy hnum)
  · rw [key rho x Mdot hrho.ne' (by positivity),
      key rho y Mdot hrho.ne' (by linarith)]
    apply div_lt_div_of_pos_left (by positivity)
    · positivity
    · have : 0 < 4 * env.pi * H * env.AU ^ 2 * env.yr * rho := by positivity
      exact mul_lt_mul_of_pos_left hxy this
  · rw [key x Mstar Mdot (by positivity) hMs.ne',
      key y Mstar Mdot (by linarith) hMs.ne']
    apply div_lt_div_of_pos_left (by positivity)
    · positivity
    · have h4 : 0 < 4 * env.pi * H * env.AU ^ 2 * env.yr := by positivity
      have := mul_lt_mul_of_pos_left hxy h4
      calc 4 * env.pi * H * env.AU ^ 2 * env.yr * x * Mstar
          = 4 * env.pi * H * env.AU ^ 2 * env.yr * x * Mstar := rfl
        _ < 4 * env.pi * H * env.AU ^ 2 * env.yr * y * Mstar := by
            exact mul_lt_mul_of_pos_right this hMs

theorem C8_facchini_monotone_witness :
    (Facchini_point envA 1 1 1 1 1 1 < Facchini_point envA 1 1 1 1 1 2) ∧
    (Facchini_point envA 1 1 1 1 2 1 < Facchini_point envA 1 1 1 1 1 1) ∧
    (Facchini_point envA 1 1 1 2 1 1 < Facchini_point envA 1 1 1 1 1 1) := by
  obtain ⟨h1, h2, h3⟩ := C8_facchini_monotone envA 1 1 1 1 1 1 1 2
    (by norm_num [envA]) (by norm_num [envA]) one_pos one_pos
    (by norm_num [envA]) (by norm_num [envA]) (by norm_num [envA])
    (by norm_num [envA]) one_pos one_pos one_pos one_lt_two
  exact ⟨h1 zero_le_one, h2 one_pos, h3 one_pos⟩

/-! Claim C9: the dust-entrainment fraction and entrained mass. -/

/-- C9: on each annulus `i` of a dusty disc, `dust_entrainment` returns the
annulus's total dust mass times the entrained fraction
`min 1 ((a_ent/a_max)**(4-p))`; consequently the entrained mass is at most
the dust mass (the fraction is clamped at one), it is `0` whenever the
annulus's total dust mass is `0`, and annuli with no gas contribute exactly
zero. -/
theorem C9_dust_entrainment (env : NumEnv) (disc : Disc) (a_ent : List ℚ)
    (i : ℕ) (hi : i < disc.Sigma.length) :
    (0 < disc.Sigma_G.getD i 0 →
      (dust_entrainment env disc a_ent).getD i 0 =
        (M_dust_tot env disc).getD i 0 *
          min 1 (env.rpow (a_ent.getD i 0 / disc.grain_size1.getD i 0)
            (4 - disc.p))) ∧
    (¬ 0 < disc.Sigma_G.getD i 0 →
      (dust_entrainment env disc a_ent).getD i 0 = 0) ∧
    ((M_dust_tot env disc).getD i 0 = 0 →
      (dust_entrainment env disc a_ent).getD i 0 = 0) ∧
    (0 ≤ (M_dust_tot env disc).getD i 0 →
      (dust_entrainment env disc a_ent).getD i 0 ≤
        (M_dust_tot env disc).getD i 0) := by
  have hent : (dust_entrainment env disc a_ent).getD i 0 =
      if 0 < disc.Sigma_G.getD i 0 then
        (M_dust_tot env disc).getD i 0 *
          min 1 (env.rpow (a_ent.getD i 0 / disc.grain_size1.getD i 0)
            (4 - disc.p))
      else 0 := by
    rw [dust_entrainment, getD_range_map _ _ _ i hi]
  refine ⟨fun h => ?_, fun h => ?_, fun h => ?_, fun h => ?_⟩
  · rw [hent, if_pos h]
  · rw [hent, if_neg h]
  · rw [hent]
    by_cases hg : 0 < disc.Sigma_G.getD i 0
    · rw [if_pos hg, h, zero_mul]
    · rw [if_neg hg]
  · rw [hent]
    by_cases hg : 0 < disc.Sigma_G.getD i 0
    · rw [if_pos hg]
      exact mul_le_of_le_one_right h (min_le_left _ _)
    · rw [if_neg hg]
      exact h

theorem C9_dust_entrainment_witness :
    (dust_entrainment envD discDustA [1]).getD 0 0 =
      (M_dust_tot envD discDustA).getD 0 0 *
        min 1 (envD.rpow ((1 : ℚ) / 1) (4 - discDustA.p)) ∧
    (dust_entrainment envD discDustA [1]).getD 0 0 ≤
      (M_dust_tot envD discDustA).getD 0 0 := by
  obtain ⟨h1, h2, h3, h4⟩ := C9_dust_entrainment envD discDustA [1] 0
    (by norm_num [discDustA])
  refine ⟨?_, h4 ?_⟩
  · have := h1 (by norm_num [discDustA, List.getD])
    simpa [discDustA, List.getD] using this
  · norm_num [M_dust_tot, dA_list, Re_phys, envD, discDustA, List.zipWith,
      List.getD]

/-! Claim C5: the optically-thin/thick transition index. -/

theorem listMax_mem (l : List ℚ) (h : l ≠ []) : listMax l ∈ l := by
  cases hm : l.max? with
  | none => exact absurd (List.max?_eq_none_iff.mp hm) h
  | some a =>
    rw [listMax, hm]
    exact List.max?_mem max_choice hm

theorem le_listMax (l : List ℚ) (x : ℚ) (hx : x ∈ l) : x ≤ listMax l := by
  cases hm : l.max? with
  | none => exact absurd (List.max?_eq_none_iff.mp hm) (by rintro rfl; simp at hx)
  | some a =>
    rw [listMax, hm]
    exact (List.max?_le_iff (fun _ _ _ => max_le_iff) hm).mp le_rfl x hx

theorem listMax_reverse (l : List ℚ) : listMax l.reverse = listMax l := by
  rcases eq_or_ne l [] with rfl | hne
  · rfl
  · have hrne : l.reverse ≠ [] := by simpa using hne
    exact le_antisymm
      (le_listMax l _ (by simpa using listMax_mem l.reverse hrne))
      (le_listMax l.reverse _ (by simpa using listMax_mem l hne))

theorem ot_imax_lt_length (l : List ℚ) (hne : l ≠ []) : ot_imax l < l.length := by
  have hn : 0 < l.length := List.length_pos.mpr hne
  rw [ot_imax]
  omega

theorem listArgmax_reverse_lt (l : List ℚ) (hne : l ≠ []) :
    listArgmax l.reverse < l.length := by
  have hrne : l.reverse ≠ [] := by simpa using hne
  have := List.findIdx_lt_length_of_exists
    (⟨listMax l.reverse, listMax_mem l.reverse hrne, by simp⟩ :
      ∃ x ∈ l.reverse, decide (listMax l.reverse ≤ x) = true)
  rw [List.length_reverse] at this
  exact this

/-- C5 (amended): the transition index computed at line 87 is the outermost
index attaining the global maximum of the raw rate array: its value is
`listMax`, and every annulus strictly beyond it has a strictly smaller raw
rate (the "first local maximum found from outside" reading is what the
counterexample refutes). -/
theorem C5_amended_transition_index (l : List ℚ) (hne : l ≠ []) :
    ot_imax l < l.length ∧ l.getD (ot_imax l) 0 = listMax l ∧
    ∀ j, ot_imax l < j → j < l.length → l.getD j 0 < listMax l := by
  have hn : 0 < l.length := List.length_pos.mpr hne
  have ha : listArgmax l.reverse < l.length := listArgmax_reverse_lt l hne
  have hlt : ot_imax l < l.length := ot_imax_lt_length l hne
  have hidx : ot_imax l = l.length - 1 - listArgmax l.reverse := by
    rw [ot_imax]; omega
  have hgrev : ∀ i, i < l.length →
      l.reverse.getD i 0 = l.getD (l.length - 1 - i) 0 := by
    intro i hi
    rw [getD_of_lt 0 _ i (by simpa using hi), getD_of_lt 0 l _ (by omega),
      List.getElem_reverse]
  have h1 : listMax l.reverse ≤ l.reverse.getD (listArgmax l.reverse) 0 := by
    rw [getD_of_lt 0 _ _ (by simpa using ha)]
    have h3 := @List.findIdx_getElem _
      (fun x => decide (listMax l.reverse ≤ x)) l.reverse (by simpa using ha)
    exact of_decide_eq_true h3
  have h2 : l.reverse.getD (listArgmax l.reverse) 0 ≤ listMax l.reverse := by
    rw [getD_of_lt 0 _ _ (by simpa using ha)]
    exact le_listMax _ _ (List.getElem_mem _)
  have hvala : l.reverse.getD (listArgmax l.reverse) 0 = listMax l := by
    rw [← listMax_reverse l]
    exact le_antisymm h2 h1
  refine ⟨hlt, ?_, ?_⟩
  · rw [hidx, ← hgrev _ (by omega), hvala]
  · intro j hj1 hj2
    have hrj : l.length - 1 - j < listArgmax l.reverse := by omega
    have hp := @List.not_of_lt_findIdx _
      (fun x => decide (listMax l.reverse ≤ x)) l.reverse (l.length - 1 - j)
      hrj
    have hlt2 : l.reverse.getD (l.length - 1 - j) 0 < listMax l.reverse := by
      rw [getD_of_lt 0 _ _ (by simp; omega)]
      simpa using hp
    rw [← listMax_reverse l]
    have hj3 := hgrev (l.length - 1 - j) (by omega)
    rw [show l.length - 1 - (l.length - 1 - j) = j from by omega] at hj3
    rw [← hj3]
    exact hlt2

theorem C5_amended_transition_index_witness :
    ot_imax [5, 1, 2, 1] < ([5, 1, 2, 1] : List ℚ).length ∧
    ([5, 1, 2, 1] : List ℚ).getD (ot_imax [5, 1, 2, 1]) 0 = listMax [5, 1, 2, 1] ∧
    ∀ j, ot_imax [5, 1, 2, 1] < j → j < ([5, 1, 2, 1] : List ℚ).length →
      ([5, 1, 2, 1] : List ℚ).getD j 0 < listMax [5, 1, 2, 1] :=
  C5_amended_transition_index [5, 1, 2, 1] (by simp)

/-! Claim C6: normalization of the optically-thin weights. -/

theorem getD_zipWith {α β γ : Type} (d : γ) (f : α → β → γ) (l1 : List α)
    (l2 : List β) (i : ℕ) (h1 : i < l1.length) (h2 : i < l2.length) :
    (List.zipWith f l1 l2).getD i d = f l1[i] l2[i] := by
  rw [getD_of_lt d _ i (by rw [List.length_zipWith]; omega),
    List.getElem_zipWith]

theorem getD_le_of_chain (f : List ℚ) (n : ℕ)
    (hmono : ∀ i, i + 1 < n → f.getD i 0 < f.getD (i + 1) 0) :
    ∀ j, j < n → ∀ i, i ≤ j → f.getD i 0 ≤ f.getD j 0 := by
  intro j
  induction j with
  | zero =>
    intro _ i hi
    interval_cases i
    exact le_rfl
  | succ j ih =>
    intro hj i hi
    rcases Nat.eq_or_lt_of_le hi with rfl | hlt
    · exact le_rfl
    · exact le_trans (ih (by omega) i (by omega)) (le_of_lt (hmono j hj))

theorem getD_lt_of_chain (f : List ℚ) (n : ℕ)
    (hmono : ∀ i, i + 1 < n → f.getD i 0 < f.getD (i + 1) 0) :
    ∀ j, j < n → ∀ i, i < j → f.getD i 0 < f.getD j 0 := by
  intro j hj i hij
  have h1 : f.getD i 0 ≤ f.getD (j - 1) 0 :=
    getD_le_of_chain f n hmono (j - 1) (by omega) i (by omega)
  have h2 : f.getD (j - 1) 0 < f.getD (j - 1 + 1) 0 := hmono (j - 1) (by omega)
  rw [show j - 1 + 1 = j from by omega] at h2
  exact lt_of_le_of_lt h1 h2

/-- C6: for a disc with strictly increasing radii, nonnegative gas surface
density that is positive at the outermost annulus, positive weight basis
`R**(3/2)`, and a raw rate array with a single interior strict maximum, the
weights of `optically_thin_weighting` sum to exactly `1` over the annuli at
or beyond the transition index, and are exactly `0` strictly inside it. -/
theorem C6_weight_normalization (env : NumEnv) (mlr : Provider) (disc : Disc)
    (n : ℕ) (hn : 0 < n) (hR : disc.R.length = n)
    (hSG : disc.Sigma_G.length = n)
    (hMlen : (mlr disc (not_empty disc)).length = n)
    (hmono : ∀ i, i + 1 < n → disc.R.getD i 0 < disc.R.getD (i + 1) 0)
    (hsgnn : ∀ i < n, 0 ≤ disc.Sigma_G.getD i 0)
    (hout : 0 < disc.Sigma_G.getD (n - 1) 0)
    (hpow : ∀ i < n, 0 < env.rpow (disc.R.getD i 0) (3 / 2))
    (hsingle : ∃ j, 0 < j ∧ j + 1 < n ∧ ∀ i < n, i ≠ j →
      (unweighted_rates env mlr disc).1.getD i 0 <
        (unweighted_rates env mlr disc).1.getD j 0) :
    ((ot_sweight env disc (unweighted_rates env mlr disc).1).drop
      (ot_imax (unweighted_rates env mlr disc).1)).sum = 1 ∧
    ∀ i < ot_imax (unweighted_rates env mlr disc).1,
      (ot_sweight env disc (unweighted_rates env mlr disc).1).getD i 0 = 0 := by
  clear hsingle
  have hMlen2 : (unweighted_rates env mlr disc).1.length = n := by
    simpa [unweighted_rates] using hMlen
  have hMne : (unweighted_rates env mlr disc).1 ≠ [] := by
    rw [← List.length_pos, hMlen2]
    exact hn
  have himax : ot_imax (unweighted_rates env mlr disc).1 < n :=
    hMlen2 ▸ ot_imax_lt_length _ hMne
  set im := ot_imax (unweighted_rates env mlr disc).1 with himdef
  have hiff : ∀ i, i < n →
      ((disc.R.getD im 0 ≤ disc.R.getD i 0) ↔ im ≤ i) := by
    intro i hi
    constructor
    · intro hle2
      by_contra hcon
      push_neg at hcon
      exact absurd hle2
        (not_le.mpr (getD_lt_of_chain disc.R n hmono im himax i hcon))
    · intro him
      exact getD_le_of_chain disc.R n hmono i hi im him
  have hot : ∀ i, i < n →
      (ot_mask disc im).getD i false = decide (im ≤ i) := by
    intro i hi
    rw [ot_mask, getD_map_of_lt _ _ _ i (by rw [hR]; exact hi),
      ← getD_of_lt 0 disc.R i (by rw [hR]; exact hi), decide_eq_decide]
    exact hiff i hi
  have hotlen : (ot_mask disc im).length = n := by simp [ot_mask, hR]
  have hslen : (ot_s env disc).length = n := by
    simp [ot_s, hR, hSG]
  have hsval : ∀ i, i < n → (ot_s env disc).getD i 0 =
      env.rpow (disc.R.getD i 0) (3 / 2) * disc.Sigma_G.getD i 0 := by
    intro i hi
    rw [ot_s, getD_zipWith 0 _ _ _ i (by rw [hR]; exact hi)
        (by rw [hSG]; exact hi),
      ← getD_of_lt 0 disc.R i (by rw [hR]; exact hi),
      ← getD_of_lt 0 disc.Sigma_G i (by rw [hSG]; exact hi)]
  have hsnn : ∀ i, i < n → 0 ≤ (ot_s env disc).getD i 0 := by
    intro i hi
    rw [hsval i hi]
    exact mul_nonneg (le_of_lt (hpow i hi)) (hsgnn i hi)
  have hsout : 0 < (ot_s env disc).getD (n - 1) 0 := by
    rw [hsval _ (by omega)]
    exact mul_pos (hpow _ (by omega)) hout
  have hzlen : (List.zipWith (fun si b => if b then si else 0) (ot_s env disc)
      (ot_mask disc im)).length = n := by
    rw [List.length_zipWith, hslen, hotlen]
    simp
  have hzval : ∀ i, i < n →
      (List.zipWith (fun si b => if b then si else 0) (ot_s env disc)
        (ot_mask disc im)).getD i 0 =
      if im ≤ i then (ot_s env disc).getD i 0 else 0 := by
    intro i hi
    rw [getD_zipWith 0 _ _ _ i (by rw [hslen]; exact hi)
        (by rw [hotlen]; exact hi),
      ← getD_of_lt false (ot_mask disc im) i (by rw [hotlen]; exact hi),
      hot i hi, ← getD_of_lt 0 (ot_s env disc) i (by rw [hslen]; exact hi)]
    by_cases him : im ≤ i <;> simp [him]
  have hstot : (List.zipWith (fun si b => if b then si else 0) (ot_s env disc)
      (ot_mask disc im)).sum =
      ∑ i in Finset.Ico im n, (ot_s env disc).getD i 0 := by
    rw [list_sum_eq_range_sum, hzlen, Finset.range_eq_Ico,
      ← Finset.sum_Ico_consecutive _ (Nat.zero_le im) (le_of_lt himax)]
    have hz1 : ∑ i in Finset.Ico 0 im,
        (List.zipWith (fun si b => if b then si else 0) (ot_s env disc)
          (ot_mask disc im)).getD i 0 = 0 := by
      apply Finset.sum_eq_zero
      intro i hi
      rw [Finset.mem_Ico] at hi
      rw [hzval i (by omega), if_neg (by omega)]
    have hz2 : ∀ i ∈ Finset.Ico im n,
        (List.zipWith (fun si b => if b then si else 0) (ot_s env disc)
          (ot_mask disc im)).getD i 0 = (ot_s env disc).getD i 0 := by
      intro i hi
      rw [Finset.mem_Ico] at hi
      rw [hzval i hi.2, if_pos hi.1]
    rw [hz1, Finset.sum_congr rfl hz2, zero_add]
  have hstotpos : 0 < ∑ i in Finset.Ico im n, (ot_s env disc).getD i 0 := by
    apply Finset.sum_pos'
    · intro i hi
      rw [Finset.mem_Ico] at hi
      exact hsnn i hi.2
    · exact ⟨n - 1, Finset.mem_Ico.mpr ⟨by omega, by omega⟩, hsout⟩
  have hswval : ∀ i, i < n →
      (ot_sweight env disc (unweighted_rates env mlr disc).1).getD i 0 =
      if im ≤ i then (ot_s env disc).getD i 0 /
        (List.zipWith (fun si b => if b then si else 0) (ot_s env disc)
          (ot_mask disc im)).sum
      else 0 := by
    intro i hi
    rw [ot_sweight, ← himdef]
    rw [getD_zipWith 0 _ _ _ i (by rw [List.length_map, hslen]; exact hi)
        (by rw [hotlen]; exact hi),
      ← getD_of_lt false (ot_mask disc im) i (by rw [hotlen]; exact hi),
      hot i hi]
    have hmapval : ((ot_s env disc).map (fun w => w /
        (List.zipWith (fun si b => if b then si else 0) (ot_s env disc)
          (ot_mask disc im)).sum)).getD i 0 =
        (ot_s env disc).getD i 0 /
        (List.zipWith (fun si b => if b then si else 0) (ot_s env disc)
          (ot_mask disc im)).sum := by
      rw [getD_map_of_lt _ _ _ i (by rw [hslen]; exact hi),
        ← getD_of_lt 0 (ot_s env disc) i (by rw [hslen]; exact hi)]
    rw [← getD_of_lt 0 _ i (by rw [List.length_map, hslen]; exact hi)]
    rw [hmapval]
    by_cases him : im ≤ i <;> simp [him]
  have hswlen :
      (ot_sweight env disc (unweighted_rates env mlr disc).1).length = n := by
    rw [ot_sweight, ← himdef, List.length_zipWith, List.length_map, hslen,
      hotlen]
    simp
  constructor
  · rw [drop_sum_eq, hswlen]
    have hcongr : ∀ i ∈ Finset.Ico im n,
        (ot_sweight env disc (unweighted_rates env mlr disc).1).getD i 0 =
        (ot_s env disc).getD i 0 /
        (List.zipWith (fun si b => if b then si else 0) (ot_s env disc)
          (ot_mask disc im)).sum := by
      intro i hi
      rw [Finset.mem_Ico] at hi
      rw [hswval i hi.2, if_pos hi.1]
    rw [Finset.sum_congr rfl hcongr, ← Finset.sum_div, hstot]
    exact div_self (ne_of_gt hstotpos)
  · intro i hi
    rw [hswval i (lt_trans hi himax), if_neg (by omega)]

theorem C6_weight_normalization_witness :
    ((ot_sweight envA disc3w (unweighted_rates envA mlrPeak disc3w).1).drop
      (ot_imax (unweighted_rates envA mlrPeak disc3w).1)).sum = 1 ∧
    ∀ i < ot_imax (unweighted_rates envA mlrPeak disc3w).1,
      (ot_sweight envA disc3w (unweighted_rates envA mlrPeak disc3w).1).getD
        i 0 = 0 :=
  C6_weight_normalization envA mlrPeak disc3w 3 (by norm_num)
    (by norm_num [disc3w]) (by norm_num [disc3w])
    (by norm_num [mlrPeak, not_empty, boolMask, disc3w])
    (by
      intro i hi
      have hcase : i = 0 ∨ i = 1 := by omega
      rcases hcase with rfl | rfl <;> norm_num [disc3w, List.getD])
    (by intro i hi; interval_cases i <;> norm_num [disc3w, List.getD])
    (by norm_num [disc3w, List.getD])
    (by intro i hi; interval_cases i <;> norm_num [envA, disc3w, List.getD])
    ⟨1, by norm_num, by norm_num, by
      intro i hi hne
      have hcase : i = 0 ∨ i = 2 := by omega
      rcases hcase with rfl | rfl <;>
        norm_num [unweighted_rates, mlrPeak, envA, disc3w, not_empty,
          boolMask, List.getD]⟩

/-! Claim C4: the mass balance of `weighted_removal`. -/

theorem getD_zipWith_q (f : ℚ → ℚ → ℚ) (l1 l2 : List ℚ) (i : ℕ)
    (h1 : i < l1.length) (h2 : i < l2.length) :
    (List.zipWith f l1 l2).getD i 0 = f (l1.getD i 0) (l2.getD i 0) := by
  rw [getD_zipWith 0 f l1 l2 i h1 h2, getD_of_lt 0 l1 i h1,
    getD_of_lt 0 l2 i h2]

theorem getD_map_q (f : ℚ → ℚ) (l : List ℚ) (i : ℕ) (h : i < l.length) :
    (l.map f).getD i 0 = f (l.getD i 0) := by
  rw [getD_map_of_lt 0 f l i h, getD_of_lt 0 l i h]

theorem length_otw_fst (env : NumEnv) (mlr : Provider) (disc : Disc) (n : ℕ)
    (hR : disc.R.length = n) (hSG : disc.Sigma_G.length = n) :
    (optically_thin_weighting env mlr disc).1.length = n := by
  simp [optically_thin_weighting, ot_sweight, ot_s, ot_mask, hR, hSG]

theorem length_dA (env : NumEnv) (disc : Disc) (n : ℕ)
    (hRe : disc.R_edge.length = n + 1) : (dA_list env disc).length = n := by
  simp [dA_list, Re_phys, hRe]

/-- C4 (amended): the total mass removed from `Sigma` by `weighted_removal`
(each annulus's `Sigma` decrease times its area, summed) equals the summed
optically-thin-weighted rate times `dt`, plus — when the disc carries dust —
the total entrained dust mass `weighted_M_ent_w` also subtracted from
`Sigma`; for a dust-free disc the two sides agree exactly. -/
theorem C4_amended_mass_balance (env : NumEnv) (mlr : Provider) (disc : Disc)
    (n : ℕ) (dt : ℚ) (hS : disc.Sigma.length = n)
    (hSG : disc.Sigma_G.length = n) (hR : disc.R.length = n)
    (hRe : disc.R_edge.length = n + 1)
    (hdA : ∀ i < n, (dA_list env disc).getD i 0 ≠ 0) :
    ∑ i in Finset.range n,
      (disc.Sigma.getD i 0 -
        (weighted_removal env mlr disc dt).Sigma.getD i 0) *
        (dA_list env disc).getD i 0 =
    (∑ i in Finset.range n,
      (optically_thin_weighting env mlr disc).1.getD i 0 * dt) +
    (if disc.isDusty then (weighted_M_ent_w env mlr disc dt).sum else 0) := by
  have hdAlen : (dA_list env disc).length = n := length_dA env disc n hRe
  have hdMlen : (optically_thin_weighting env mlr disc).1.length = n :=
    length_otw_fst env mlr disc n hR hSG
  cases hd : disc.isDusty with
  | false =>
    have hwr : (weighted_removal env mlr disc dt).Sigma =
        List.zipWith (· - ·) disc.Sigma
          (List.zipWith (· / ·)
            ((optically_thin_weighting env mlr disc).1.map (· * dt))
            (dA_list env disc)) := by
      simp only [weighted_removal, hd]
      simp
    have hterm : ∀ i ∈ Finset.range n,
        (disc.Sigma.getD i 0 -
          (weighted_removal env mlr disc dt).Sigma.getD i 0) *
          (dA_list env disc).getD i 0 =
        (optically_thin_weighting env mlr disc).1.getD i 0 * dt := by
      intro i hi
      rw [Finset.mem_range] at hi
      rw [hwr,
        getD_zipWith_q _ _ _ i (hS ▸ hi)
          (by rw [List.length_zipWith, List.length_map, hdMlen, hdAlen]
              simpa using hi),
        getD_zipWith_q _ _ _ i (by rw [List.length_map, hdMlen]; exact hi)
          (hdAlen ▸ hi),
        getD_map_q _ _ i (hdMlen ▸ hi), sub_sub_cancel]
      exact div_mul_cancel₀ _ (hdA i hi)
    rw [Finset.sum_congr rfl hterm]
    simp
  | true =>
    have hMwlen : (weighted_M_ent_w env mlr disc dt).length = n := by
      simp [weighted_M_ent_w, hS]
    have hwr : (weighted_removal env mlr disc dt).Sigma =
        List.zipWith (· - ·)
          (List.zipWith (· - ·) disc.Sigma
            (List.zipWith (· / ·)
              ((optically_thin_weighting env mlr disc).1.map (· * dt))
              (dA_list env disc)))
          (List.zipWith (· / ·) (weighted_M_ent_w env mlr disc dt)
            (dA_list env disc)) := by
      simp only [weighted_removal, hd]
      simp
    have hterm : ∀ i ∈ Finset.range n,
        (disc.Sigma.getD i 0 -
          (weighted_removal env mlr disc dt).Sigma.getD i 0) *
          (dA_list env disc).getD i 0 =
        (optically_thin_weighting env mlr disc).1.getD i 0 * dt +
          (weighted_M_ent_w env mlr disc dt).getD i 0 := by
      intro i hi
      rw [Finset.mem_range] at hi
      have hinlen : (List.zipWith (· / ·)
          ((optically_thin_weighting env mlr disc).1.map (· * dt))
          (dA_list env disc)).length = n := by
        rw [List.length_zipWith, List.length_map, hdMlen, hdAlen]
        simp
      rw [hwr,
        getD_zipWith_q _ _ _ i
          (by rw [List.length_zipWith, hS, hinlen]; simpa using hi)
          (by rw [List.length_zipWith, hMwlen, hdAlen]; simpa using hi),
        getD_zipWith_q _ _ _ i (hS ▸ hi) (hinlen ▸ hi),
        getD_zipWith_q _ _ _ i (by rw [List.length_map, hdMlen]; exact hi)
          (hdAlen ▸ hi),
        getD_zipWith_q _ _ _ i (hMwlen ▸ hi) (hdAlen ▸ hi),
        getD_map_q _ _ i (hdMlen ▸ hi)]
      have hc1 : (optically_thin_weighting env mlr disc).1.getD i 0 * dt /
          (dA_list env disc).getD i 0 * (dA_list env disc).getD i 0 =
          (optically_thin_weighting env mlr disc).1.getD i 0 * dt :=
        div_mul_cancel₀ _ (hdA i hi)
      have hc2 : (weighted_M_ent_w env mlr disc dt).getD i 0 /
          (dA_list env disc).getD i 0 * (dA_list env disc).getD i 0 =
          (weighted_M_ent_w env mlr disc dt).getD i 0 :=
        div_mul_cancel₀ _ (hdA i hi)
      calc (disc.Sigma.getD i 0 -
            (disc.Sigma.getD i 0 -
              (optically_thin_weighting env mlr disc).1.getD i 0 * dt /
                (dA_list env disc).getD i 0 -
              (weighted_M_ent_w env mlr disc dt).getD i 0 /
                (dA_list env disc).getD i 0)) * (dA_list env disc).getD i 0
          = (optically_thin_weighting env mlr disc).1.getD i 0 * dt /
              (dA_list env disc).getD i 0 * (dA_list env disc).getD i 0 +
            (weighted_M_ent_w env mlr disc dt).getD i 0 /
              (dA_list env disc).getD i 0 * (dA_list env disc).getD i 0 := by
            ring
        _ = (optically_thin_weighting env mlr disc).1.getD i 0 * dt +
            (weighted_M_ent_w env mlr disc dt).getD i 0 := by
            rw [hc1, hc2]
    rw [Finset.sum_congr rfl hterm, Finset.sum_add_distrib]
    rw [list_sum_eq_range_sum (weighted_M_ent_w env mlr disc dt), hMwlen]
    simp

theorem C4_amended_mass_balance_witness :
    ∑ i in Finset.range 1,
      (discDustA.Sigma.getD i 0 -
        (weighted_removal envD (FRIED_S_mass_loss_rate lookupConst6) discDustA
          1).Sigma.getD i 0) * (dA_list envD discDustA).getD i 0 =
    (∑ i in Finset.range 1,
      (optically_thin_weighting envD (FRIED_S_mass_loss_rate lookupConst6)
        discDustA).1.getD i 0 * 1) +
    (if discDustA.isDusty then
      (weighted_M_ent_w envD (FRIED_S_mass_loss_rate lookupConst6) discDustA
        1).sum
    else 0) :=
  C4_amended_mass_balance envD (FRIED_S_mass_loss_rate lookupConst6) discDustA
    1 1 (by norm_num [discDustA]) (by norm_num [discDustA])
    (by norm_num [discDustA]) (by norm_num [discDustA])
    (by
      intro i hi
      interval_cases i
      norm_num [dA_list, Re_phys, envD, discDustA, List.zipWith, List.getD])

/-! Claim C1: nonnegativity of `Sigma` after removal. -/

theorem compress_all_true (mask : List Bool) (l : List ℚ)
    (hm : ∀ b ∈ mask, b = true) (hl : l.length ≤ mask.length) :
    compress mask l = l := by
  induction l generalizing mask with
  | nil => simp [compress]
  | cons x xs ih =>
    cases mask with
    | nil => simp at hl
    | cons b bs =>
      have hb : b = true := hm b (by simp)
      subst hb
      rw [compress, List.zip_cons_cons, List.filterMap_cons]
      simp only [if_true]
      rw [show (xs.zip bs).filterMap
          (fun q => if q.2 = true then some q.1 else none) = compress bs xs
          from rfl]
      rw [ih bs (fun c hc => hm c (List.mem_cons_of_mem _ hc))
        (Nat.le_of_succ_le_succ hl)]

theorem padZeros_self (l : List ℚ) (n : ℕ) (h : l.length = n) :
    padZeros l n = l := by
  simp [padZeros, h]

theorem length_revCumSum (l : List ℚ) : (revCumSum l).length = l.length := by
  induction l with
  | nil => rfl
  | cons x xs ih => simp [revCumSum, ih]

theorem revCumSum_getD (l : List ℚ) (i : ℕ) (h : i < l.length) :
    (revCumSum l).getD i 0 = (l.drop i).sum := by
  induction l generalizing i with
  | nil => simp at h
  | cons x xs ih =>
    cases i with
    | zero => simp [revCumSum]
    | succ i =>
      rw [revCumSum, List.getD_cons_succ, List.drop_succ_cons]
      exact ih i (by simpa using h)

theorem suffix_sum_lt (l : List ℚ) (hpos : ∀ x ∈ l, 0 < x) (i j : ℕ)
    (hij : i < j) (hj : j ≤ l.length) : (l.drop j).sum < (l.drop i).sum := by
  have hsplit := List.sum_take_add_sum_drop (l.drop i) (j - i)
  rw [List.drop_drop, show i + (j - i) = j from by omega] at hsplit
  have htpos : 0 < (List.take (j - i) (l.drop i)).sum := by
    apply List.sum_pos
    · intro x hx
      exact hpos x (List.mem_of_mem_drop (List.mem_of_mem_take hx))
    · have hlen : (List.take (j - i) (l.drop i)).length =
          min (j - i) (l.length - i) := by simp
      intro hcon
      rw [hcon] at hlen
      simp only [List.length_nil] at hlen
      omega
  linarith

theorem suffix_sum_le (l : List ℚ) (hpos : ∀ x ∈ l, 0 < x) (i j : ℕ)
    (hij : i ≤ j) (hj : j ≤ l.length) : (l.drop j).sum ≤ (l.drop i).sum := by
  rcases Nat.eq_or_lt_of_le hij with rfl | hlt
  · exact le_rfl
  · exact le_of_lt (suffix_sum_lt l hpos i j hlt hj)

theorem drop_sum_head (l : List ℚ) (h : ℕ) (hh : h < l.length) :
    (l.drop h).sum = l.getD h 0 + (l.drop (h + 1)).sum := by
  rw [List.drop_eq_getElem_cons hh, List.sum_cons, getD_of_lt 0 l h hh]

theorem forall_mem_of_getD (l : List ℚ) (n : ℕ) (hlen : l.length = n)
    (P : ℚ → Prop) (h : ∀ i < n, P (l.getD i 0)) : ∀ x ∈ l, P x := by
  intro x hx
  obtain ⟨i, hi, rfl⟩ := List.mem_iff_getElem.mp hx
  rw [← getD_of_lt 0 l i hi]
  exact h i (hlen ▸ hi)

/-- Nonnegativity of the `timescale_remove` array update, stated over the
plain lists it manipulates: if `Dt` is the reverse cumulative sum of
positive per-annulus depletion times and the timestep exceeds the outermost
cumulative time `Dt[N-1]`, every entry of `ts_update` is nonnegative. -/
theorem ts_update_nonneg (Sigma Dt DtR : List ℚ) (N : ℕ) (dt : ℚ)
    (hN : 0 < N) (hSlen : Sigma.length = N)
    (hDtR : Dt = revCumSum DtR) (hDtRlen : DtR.length = N)
    (hDtRpos_idx : ∀ j < N, 0 < DtR.getD j 0)
    (hSig0 : ∀ x ∈ Sigma, 0 ≤ x)
    (hdt : Dt.getD (N - 1) 0 < dt) :
    ∀ i, 0 ≤ (ts_update Sigma Dt N dt).getD i 0 := by
  intro i
  have hDtRpos : ∀ x ∈ DtR, 0 < x :=
    forall_mem_of_getD DtR N hDtRlen _ hDtRpos_idx
  have hDtlen : Dt.length = N := by rw [hDtR, length_revCumSum, hDtRlen]
  have hDtgetD : ∀ j, j < N → Dt.getD j 0 = (DtR.drop j).sum := by
    intro j hj
    rw [hDtR]
    exact revCumSum_getD DtR j (hDtRlen ▸ hj)
  have hanti : ∀ a b, a ≤ b → b < N → Dt.getD b 0 ≤ Dt.getD a 0 := by
    intro a b hab hb
    rw [hDtgetD a (by omega), hDtgetD b hb]
    exact suffix_sum_le DtR hDtRpos a b hab (by omega)
  simp only [ts_update]
  set empty := (Dt.map (fun d => dt - d)).map (fun e => decide (0 < e))
    with hempdef
  have hemplen : empty.length = N := by
    rw [hempdef]
    simp [hDtlen]
  set k := empty.count true with hkdef
  have hkcount : k = Dt.countP (fun d => decide (0 < dt - d)) := by
    rw [hkdef, hempdef, List.count_eq_countP, List.countP_map,
      List.countP_map]
    congr 1
    funext d
    simp only [Function.comp_apply]
    cases hb : decide (0 < dt - d) <;> rfl
  have hkn : k ≤ N := by
    rw [hkcount]
    calc Dt.countP _ ≤ Dt.length := List.countP_le_length _
      _ = N := hDtlen
  have hk1 : 1 ≤ k := by
    rw [hkcount]
    have hpos := List.countP_pos
      (p := fun d => decide (0 < dt - d)) (l := Dt)
    apply hpos.mpr
    refine ⟨Dt.getD (N - 1) 0, ?_, by simpa using hdt⟩
    rw [getD_of_lt 0 Dt _ (by omega)]
    exact List.getElem_mem _
  set Sigma1 := List.zipWith (fun s b => if b then 0 else s) Sigma empty
    with hS1def
  have hS1len : Sigma1.length = N := by
    rw [hS1def, List.length_zipWith, hSlen, hemplen]
    simp
  have hS1nn : ∀ j < N, 0 ≤ Sigma1.getD j 0 := by
    intro j hj
    rw [hS1def, getD_zipWith 0 _ _ _ j (hSlen ▸ hj) (hemplen ▸ hj)]
    cases hb : empty[j] <;> simp [hb]
    exact hSig0 _ (List.getElem_mem _)
  clear_value Sigma1 k empty
  clear hempdef hS1def hkdef hSig0
  split_ifs with hkcond hkz
  · exact absurd hkz (by omega)
  · have hhC : ¬ (0 < dt - Dt.getD (N - (k + 1)) 0) := by
      intro hcon
      have hall : ∀ x ∈ Dt.drop (N - (k + 1)),
          (fun d => decide (0 < dt - d)) x = true := by
        intro x hx
        obtain ⟨j, hjlt, rfl⟩ := List.mem_iff_getElem.mp hx
        rw [List.getElem_drop]
        have hjn : N - (k + 1) + j < N := by
          rw [List.length_drop, hDtlen] at hjlt
          omega
        have hle2 : Dt.getD (N - (k + 1) + j) 0 ≤ Dt.getD (N - (k + 1)) 0 :=
          hanti _ _ (by omega) hjn
        rw [getD_of_lt 0 Dt _ (by omega)] at hle2
        simp only [decide_eq_true_eq]
        linarith
      have hcnt := List.countP_eq_length.mpr hall
      have hsplit : Dt.countP (fun d => decide (0 < dt - d)) =
          (Dt.take (N - (k + 1))).countP (fun d => decide (0 < dt - d)) +
          (Dt.drop (N - (k + 1))).countP (fun d => decide (0 < dt - d)) := by
        rw [← List.countP_append, List.take_append_drop]
      rw [hcnt, List.length_drop, hDtlen] at hsplit
      rw [← hkcount] at hsplit
      omega
    have hden : Dt.getD (N - (k + 1)) 0 - Dt.getD (N - k) 0 =
        DtR.getD (N - (k + 1)) 0 := by
      rw [hDtgetD _ (by omega), hDtgetD _ (by omega),
        drop_sum_head DtR (N - (k + 1)) (by omega),
        show N - (k + 1) + 1 = N - k from by omega]
      ring
    have hdenpos : 0 < DtR.getD (N - (k + 1)) 0 := hDtRpos_idx _ (by omega)
    have hexc : (Dt.map (fun d => dt - d)).getD (N - (k + 1)) 0 =
        dt - Dt.getD (N - (k + 1)) 0 :=
      getD_map_q (fun d => dt - d) Dt (N - (k + 1)) (by omega)
    have hfac : 0 ≤ -1 * ((Dt.map (fun d => dt - d)).getD (N - (k + 1)) 0) /
        (Dt.getD (N - (k + 1)) 0 - Dt.getD (N - k) 0) := by
      rw [hexc, hden]
      apply div_nonneg _ (le_of_lt hdenpos)
      push_neg at hhC
      linarith
    rcases Nat.lt_or_ge i N with hi | hi
    · rw [getD_of_lt 0 _ i (by rw [List.length_set, hS1len]; exact hi),
        List.getElem_set]
      split_ifs with hih
      · exact mul_nonneg (hS1nn _ (by omega)) hfac
      · rw [← getD_of_lt 0 Sigma1 i (by omega)]
        exact hS1nn i hi
    · rw [List.getD_eq_default]
      rw [List.length_set, hS1len]
      omega
  · rcases Nat.lt_or_ge i N with hi | hi
    · exact hS1nn i hi
    · rw [List.getD_eq_default]
      rw [hS1len]
      omega

/-- C1 (amended): after `timescale_remove`, every entry of `Sigma` is
nonnegative provided the timestep exceeds the outermost annulus's cumulative
depletion time `Dt[n-1]` (so at least one cell empties and the marginal-cell
index does not wrap around); after `weighted_removal` on a dust-free disc,
every entry of `Sigma` is nonnegative provided each annulus's weighted rate
times `dt` is at most its initial `Sigma` times area. -/
theorem C1_amended_nonneg (env : NumEnv) (mlr : Provider) (disc : Disc)
    (n : ℕ) (dt1 dt2 : ℚ) :
    (0 < n → disc.Sigma.length = n → disc.Sigma_G.length = n →
     disc.R_edge.length = n + 1 →
     (mlr disc (not_empty disc)).length = n →
     0 < env.pi → 0 < env.AU → 0 < env.Msun →
     (∀ x ∈ disc.Sigma, 0 ≤ x) → (∀ x ∈ disc.Sigma_G, 0 < x) →
     (∀ x ∈ mlr disc (not_empty disc), 0 < x) →
     (∀ i, i + 1 < n + 1 → 0 ≤ disc.R_edge.getD i 0 ∧
        disc.R_edge.getD i 0 < disc.R_edge.getD (i + 1) 0) →
     (get_timescale env mlr disc).2.2.2.getD (n - 1) 0 < dt1 →
     ∀ i, 0 ≤ (timescale_remove env mlr disc dt1).Sigma.getD i 0) ∧
    (disc.isDusty = false → disc.Sigma.length = n → disc.Sigma_G.length = n →
     disc.R.length = n → disc.R_edge.length = n + 1 →
     (∀ i < n, 0 < (dA_list env disc).getD i 0) →
     (∀ i < n, (optically_thin_weighting env mlr disc).1.getD i 0 * dt2 ≤
        disc.Sigma.getD i 0 * (dA_list env disc).getD i 0) →
     ∀ i, 0 ≤ (weighted_removal env mlr disc dt2).Sigma.getD i 0) := by
  constructor
  · intro hn hS hSG hRe hMlen hpi hAU hMsun hSig0 hsg hrate hedge hdt1 i
    have hmask : ∀ b ∈ not_empty disc, b = true := by
      intro b hb
      rw [not_empty, boolMask] at hb
      obtain ⟨x, hx, rfl⟩ := List.mem_map.mp hb
      simpa using hsg x hx
    have hmasklen : (not_empty disc).length = n := by
      simp [not_empty, boolMask, hSG]
    have hurlen : (unweighted_rates env mlr disc).1.length = n := by
      simpa [unweighted_rates] using hMlen
    have hurpos : ∀ x ∈ (unweighted_rates env mlr disc).1, 0 < x := by
      intro x hx
      simp only [unweighted_rates, List.mem_map] at hx
      obtain ⟨m, hm, rfl⟩ := hx
      have hmp := hrate m hm
      have h2pi : 0 < 2 * env.pi := by linarith
      exact div_pos (mul_pos hmp hMsun) h2pi
    have hdAlen : (dA_list env disc).length = n := length_dA env disc n hRe
    have hdApos2 : ∀ j < n, 0 < (dA_list env disc).getD j 0 := by
      intro j hj
      have hlen1 : ((Re_phys env disc).drop 1).length = n := by
        simp [Re_phys, hRe]
      have hlen2 : (Re_phys env disc).length = n + 1 := by simp [Re_phys, hRe]
      rw [dA_list, getD_zipWith_q _ _ _ j (hlen1 ▸ hj) (by omega)]
      have hdrop : ((Re_phys env disc).drop 1).getD j 0 =
          (Re_phys env disc).getD (j + 1) 0 := by
        rw [getD_of_lt 0 _ j (hlen1 ▸ hj), getD_of_lt 0 _ (j + 1) (by omega),
          List.getElem_drop]
        congr 1
        omega
      have hRe_val : ∀ m, m < n + 1 → (Re_phys env disc).getD m 0 =
          disc.R_edge.getD m 0 * env.AU := by
        intro m hm
        rw [Re_phys, getD_map_q _ _ m (hRe ▸ hm)]
      rw [hdrop, hRe_val (j + 1) (by omega), hRe_val j (by omega)]
      obtain ⟨h0, hlt⟩ := hedge j (by omega)
      have h1 : (0 : ℚ) ≤ disc.R_edge.getD j 0 * env.AU := by positivity
      have h2 : disc.R_edge.getD j 0 * env.AU <
          disc.R_edge.getD (j + 1) 0 * env.AU :=
        mul_lt_mul_of_pos_right hlt hAU
      have hsq : (disc.R_edge.getD j 0 * env.AU) ^ 2 <
          (disc.R_edge.getD (j + 1) 0 * env.AU) ^ 2 :=
        pow_lt_pow_left h2 h1 (by norm_num)
      have hsub : (0 : ℚ) < (disc.R_edge.getD (j + 1) 0 * env.AU) ^ 2 -
          (disc.R_edge.getD j 0 * env.AU) ^ 2 := by linarith
      exact mul_pos hpi hsub
    have hdMglen : (dM_gas_list env disc).length = n := by
      rw [dM_gas_list, List.length_zipWith, hSG, hdAlen]
      simp
    have hdMgpos : ∀ j < n, 0 < (dM_gas_list env disc).getD j 0 := by
      intro j hj
      rw [dM_gas_list, getD_zipWith_q _ _ _ j (hSG ▸ hj) (hdAlen ▸ hj)]
      have hsgj : 0 < disc.Sigma_G.getD j 0 := by
        rw [getD_of_lt 0 _ j (hSG ▸ hj)]
        exact hsg _ (List.getElem_mem _)
      exact mul_pos hsgj (hdApos2 j hj)
    set DtR := List.zipWith (· / ·) (dM_gas_list env disc)
      (unweighted_rates env mlr disc).1 with hDtRdef
    have hDtRlen : DtR.length = n := by
      rw [hDtRdef, List.length_zipWith, hdMglen, hurlen]
      simp
    have hDtRpos_idx : ∀ j < n, 0 < DtR.getD j 0 := by
      intro j hj
      rw [hDtRdef, getD_zipWith_q _ _ _ j (hdMglen ▸ hj) (hurlen ▸ hj)]
      apply div_pos (hdMgpos j hj)
      rw [getD_of_lt 0 _ j (hurlen ▸ hj)]
      exact hurpos _ (List.getElem_mem _)
    have hDt_eq : (get_timescale env mlr disc).2.2.2 = revCumSum DtR := by
      simp only [get_timescale]
      rw [show (unweighted_rates env mlr disc).2 = dM_gas_list env disc
        from rfl]
      rw [compress_all_true _ _ hmask (by rw [hdMglen, hmasklen]),
        compress_all_true _ _ hmask (by rw [hurlen, hmasklen]),
        padZeros_self _ _ (by
          rw [List.length_zipWith, hdMglen, hurlen, hSG]
          simp)]
    have hdt1x : (revCumSum DtR).getD (n - 1) 0 < dt1 := by
      rw [← hDt_eq]
      exact hdt1
    simp only [timescale_remove]
    rw [hDt_eq, hSG]
    exact ts_update_nonneg disc.Sigma (revCumSum DtR) DtR n dt1 hn hS rfl
      hDtRlen hDtRpos_idx hSig0 hdt1x i
  · intro hd hS hSG hR hRe hdApos hbound i
    have hdMlen : (optically_thin_weighting env mlr disc).1.length = n :=
      length_otw_fst env mlr disc n hR hSG
    have hdAlen : (dA_list env disc).length = n := length_dA env disc n hRe
    have hwr : (weighted_removal env mlr disc dt2).Sigma =
        List.zipWith (· - ·) disc.Sigma
          (List.zipWith (· / ·)
            ((optically_thin_weighting env mlr disc).1.map (· * dt2))
            (dA_list env disc)) := by
      simp only [weighted_removal, hd]
      simp
    rcases Nat.lt_or_ge i n with hi | hi
    · rw [hwr,
        getD_zipWith_q _ _ _ i (hS ▸ hi)
          (by rw [List.length_zipWith, List.length_map, hdMlen, hdAlen]
              simpa using hi),
        getD_zipWith_q _ _ _ i (by rw [List.length_map, hdMlen]; exact hi)
          (hdAlen ▸ hi),
        getD_map_q _ _ i (hdMlen ▸ hi)]
      rw [sub_nonneg, div_le_iff₀ (hdApos i hi)]
      exact hbound i hi
    · rw [hwr, List.getD_eq_default]
      rw [List.length_zipWith, hS, List.length_zipWith, List.length_map,
        hdMlen, hdAlen]
      omega

theorem C1_amended_nonneg_witness :
    (∀ i, 0 ≤ (timescale_remove envA (FixedExternalEvaporation_mlr 1) discB
      60).Sigma.getD i 0) ∧
    (∀ i, 0 ≤ (weighted_removal envA (FixedExternalEvaporation_mlr 1) discB
      1).Sigma.getD i 0) := by
  obtain ⟨h1, h2⟩ := C1_amended_nonneg envA (FixedExternalEvaporation_mlr 1)
    discB 2 60 1
  constructor
  · apply h1 (by norm_num) (by norm_num [discB]) (by norm_num [discB])
      (by norm_num [discB])
      (by norm_num [FixedExternalEvaporation_mlr, not_empty, boolMask, discB])
      (by norm_num [envA]) (by norm_num [envA]) (by norm_num [envA])
      (by
        intro x hx
        simp only [discB, List.mem_cons, List.not_mem_nil, or_false] at hx
        rcases hx with rfl | rfl <;> norm_num)
      (by
        intro x hx
        simp only [discB, List.mem_cons, List.not_mem_nil, or_false] at hx
        rcases hx with rfl | rfl <;> norm_num)
      (by
        intro x hx
        simp only [FixedExternalEvaporation_mlr, List.mem_replicate] at hx
        rw [hx.2]
        norm_num)
      (by
        intro i hi
        have hcase : i = 0 ∨ i = 1 := by omega
        rcases hcase with rfl | rfl <;> norm_num [discB, List.getD])
      (by
        norm_num [get_timescale, unweighted_rates, not_empty, boolMask,
          dM_gas_list, dA_list, Re_phys, FixedExternalEvaporation_mlr,
          compress, padZeros, revCumSum, envA, discB, List.zipWith, List.zip,
          List.filterMap, List.getD, List.replicate])
  · apply h2 (by norm_num [discB]) (by norm_num [discB]) (by norm_num [discB])
      (by norm_num [discB]) (by norm_num [discB])
      (by
        intro i hi
        interval_cases i <;>
          norm_num [dA_list, Re_phys, envA, discB, List.zipWith, List.getD])
      (by
        intro i hi
        interval_cases i <;>
          norm_num [optically_thin_weighting, ot_sweight, ot_s, ot_mask,
            ot_imax, listArgmax, listMax, unweighted_rates, not_empty,
            boolMask, dM_gas_list, dA_list, Re_phys,
            FixedExternalEvaporation_mlr, envA, discB, List.zipWith, List.getD,
            List.range_succ, List.findIdx, List.findIdx.go, List.max?,
            List.foldl, max_def, List.replicate, List.reverse_cons])

end DiscEvo
